import Mathlib

/-!
Verification of the tag-extraction routine `parse_features_and_tags` from
`app.py` (a Streamlit dashboard).  The function derives categorical tags
(approach, FWO status, set-off period, 557C condition, clause) from a
free-text scenario description by case-insensitive substring matching and
two regex captures, and produces a cleaned display label.

The embedding below models, over `List Char`:
 * Python `str.lower` (ASCII range, which covers every string in the data),
 * substring containment (the Python `in` operator on `str`),
 * the regex search `set-off\s*:\s*([a-z\s-]+)` and its pipe-terminated
   variant `set-off\s*[:]\s*([a-z\s-]+)\s*\|` with Python's leftmost-match
   and greedy/backtracking semantics (derived by hand: the capture class
   contains every whitespace character, so a successful match captures the
   maximal class run after the colon minus the whitespace taken by the
   greedy `\s*`, falling back to a single whitespace character when the run
   is pure whitespace),
 * `str.strip`, `str.title` (ASCII), `str.replace("Apporach", "Approach")`
   and `re.sub(r"\s*\|\s*", " | ", s)` for the label cleanup.
Recursive scanners are defined with an explicit fuel argument equal to the
input length so that every definition is structural and kernel-computable.
-/

namespace ColesApp

/-- Python whitespace characters matched by `\s` (and stripped by
`str.strip`) in the ASCII range. -/
def isWS (c : Char) : Bool :=
  c = ' ' || c = '\t' || c = '\n' || c = '\r' || c = '\x0b' || c = '\x0c'

/-- ASCII lowercasing, modelling Python `str.lower` on the data in scope. -/
def lowerChar (c : Char) : Char :=
  if 'A' ≤ c && c ≤ 'Z' then Char.ofNat (c.toNat + 32) else c

/-- ASCII uppercasing (used by the model of `str.title`). -/
def upperChar (c : Char) : Char :=
  if 'a' ≤ c && c ≤ 'z' then Char.ofNat (c.toNat - 32) else c

/-- ASCII cased letter (a "cased character" for `str.title`). -/
def isAsciiLetter (c : Char) : Bool :=
  ('a' ≤ c && c ≤ 'z') || ('A' ≤ c && c ≤ 'Z')

def lowerList (l : List Char) : List Char := l.map lowerChar

/-- The regex character class `[a-z\s-]` of the set-off capture groups. -/
def isCapClass (c : Char) : Bool :=
  ('a' ≤ c && c ≤ 'z') || isWS c || c = '-'

/-- Model of Python `str.title`: a cased letter is uppercased when the
previous character is not a cased letter, lowercased otherwise.  The Bool
argument records whether the previous character was a cased letter. -/
def titleAux : Bool → List Char → List Char
  | _, [] => []
  | prev, c :: cs =>
    (if isAsciiLetter c then (if prev then lowerChar c else upperChar c) else c)
      :: titleAux (isAsciiLetter c) cs

def pyTitle (l : List Char) : List Char := titleAux false l

/-- Drop leading whitespace (Python `str.lstrip`). -/
def dropLead (l : List Char) : List Char := l.dropWhile isWS

/-- Drop trailing whitespace (Python `str.rstrip`). -/
def dropTrail (l : List Char) : List Char := (l.reverse.dropWhile isWS).reverse

/-- Python `str.strip`. -/
def pyStrip (l : List Char) : List Char := dropTrail (dropLead l)

/-- Boolean list-prefix test (used to keep every definition
kernel-computable). -/
def isPrefixB : List Char → List Char → Bool
  | [], _ => true
  | _ :: _, [] => false
  | a :: as, b :: bs => a = b && isPrefixB as bs

/-- Boolean substring test: the Python `in` operator on strings. -/
def isSubB (p : List Char) : List Char → Bool
  | [] => p.isEmpty
  | c :: cs => isPrefixB p (c :: cs) || isSubB p cs

/-- `containsStr s l` models Python `s in l` for strings. -/
def containsStr (s : String) (l : List Char) : Bool := isSubB s.toList l

/-! ### The set-off capture regexes

`cap1At l` models an anchored match of `set-off\s*:\s*([a-z\s-]+)` at the
head of `l`, returning the group: after the literal and the colon, let `w`
be the maximal whitespace run and `r` the maximal `[a-z\s-]` run (so `w`
is a prefix of `r`).  The greedy `\s*` takes all of `w`; if `r` is longer
the group is the rest of `r`; otherwise the engine backtracks one
whitespace character and the group is that single character; if `r` is
empty the match fails.  `cap2At` is the variant regex
`set-off\s*[:]\s*([a-z\s-]+)\s*\|`, which additionally requires a pipe
immediately after the class run `r` (any characters between the group and
the pipe would have to be whitespace, hence inside `r`). -/

def capGroup (rest : List Char) : Option (List Char) :=
  let w := rest.takeWhile isWS
  let r := rest.takeWhile isCapClass
  if w.length < r.length then some (r.drop w.length)
  else if 0 < w.length then some (w.drop (w.length - 1))
  else none

def cap1At (l : List Char) : Option (List Char) :=
  if isPrefixB ("set-off".toList) l then
    match (l.drop 7).dropWhile isWS with
    | [] => none
    | c :: rest => if c = ':' then capGroup rest else none
  else none

def cap2At (l : List Char) : Option (List Char) :=
  if isPrefixB ("set-off".toList) l then
    match (l.drop 7).dropWhile isWS with
    | [] => none
    | c :: rest =>
      if c = ':' then
        match rest.drop (rest.takeWhile isCapClass).length with
        | [] => none
        | d :: _ => if d = '|' then capGroup rest else none
      else none
  else none

/-- `re.search` for the first capture regex: try every start position from
the left, return the group of the leftmost successful match. -/
def findCap1 : List Char → Option (List Char)
  | [] => none
  | c :: cs =>
    match cap1At (c :: cs) with
    | some g => some g
    | none => findCap1 cs

/-- `re.search` for the second (pipe-terminated) capture regex. -/
def findCap2 : List Char → Option (List Char)
  | [] => none
  | c :: cs =>
    match cap2At (c :: cs) with
    | some g => some g
    | none => findCap2 cs

/-- The keyword fallback of the set-off branch (lines 70-76 of app.py). -/
def keywordSetoff (t : List Char) : String :=
  if containsStr "pay period" t then "Pay Period"
  else if containsStr "annual" t then "Annual"
  else if containsStr "bi annual" t || containsStr "bi-annual" t
          || containsStr "biannual" t then "Bi Annual"
  else "Unknown"

/-- The set-off dispatch of app.py lines 57-76: first regex, then the
pipe-terminated regex, then the keyword scan; `"Unknown"` when the text
does not contain `"set-off"` or nothing applies. -/
def setoffOf (t : List Char) : String :=
  if containsStr "set-off" t then
    match findCap1 t with
    | some g => String.mk (pyTitle (pyStrip g))
    | none =>
      match findCap2 t with
      | some g => String.mk (pyTitle (pyStrip g))
      | none => keywordSetoff t
  else "Unknown"

/-- Approach dispatch (app.py lines 42-47). -/
def approachOf (t : List Char) : String :=
  if containsStr "judgement based" t then "Judgement Based"
  else if containsStr "coles based" t then "Coles Based"
  else "Unknown"

/-- FWO dispatch (app.py lines 50-55). -/
def fwoOf (t : List Char) : String :=
  if containsStr "without fwo" t then "Without FWO"
  else if containsStr "with fwo" t || containsStr "after fwo" t then "With FWO"
  else "Unknown"

/-- 557C dispatch (app.py lines 79-86). -/
def cond557cOf (t : List Char) : String :=
  if containsStr "557c" t then
    if containsStr "all shifts" t then "All Shifts"
    else if containsStr "non-clocked" t || containsStr "non clocked" t then
      "Non-Clocked Shifts"
    else "557C (Unspecified)"
  else "N/A"

/-- Clause dispatch (app.py line 89). -/
def clauseOf (t : List Char) : String :=
  if containsStr "28.11" t then "28.11" else "Unknown"

/-- The misspelling corrected by the label cleanup. -/
def patMiss : List Char := "Apporach".toList

/-- Its replacement. -/
def patFix : List Char := "Approach".toList

/-- Python `str.replace(patMiss, patFix)`: left-to-right, non-overlapping,
scanning resumes after each replacement.  Fuel-indexed so the recursion is
structural; the fuel never runs out when it starts at the list length. -/
def pyReplaceF : Nat → List Char → List Char
  | _, [] => []
  | 0, l => l
  | n + 1, c :: cs =>
    if isPrefixB patMiss (c :: cs) then patFix ++ pyReplaceF n (cs.drop 7)
    else c :: pyReplaceF n cs

def pyReplace (l : List Char) : List Char := pyReplaceF l.length l

/-- `re.sub(r"\s*\|\s*", " | ", l)`.  A match of the pattern must contain a
pipe, and since no whitespace character is a pipe, the leftmost match at any
point starts at the beginning of the maximal whitespace run only when that
run is immediately followed by a pipe; the greedy trailing `\s*` then
consumes the maximal whitespace run after the pipe.  Otherwise the
whitespace run (and the following non-pipe character) is copied verbatim. -/
def pipeSubF : Nat → List Char → List Char
  | 0, l => l
  | n + 1, l =>
    match l.dropWhile isWS with
    | [] => l
    | c :: r =>
      if c = '|' then ' ' :: '|' :: ' ' :: pipeSubF n (r.dropWhile isWS)
      else l.takeWhile isWS ++ c :: pipeSubF n r

def pipeSub (l : List Char) : List Char := pipeSubF l.length l

/-- The label cleanup of app.py lines 92-94: fix the misspelling, normalise
whitespace around pipes, strip the ends. -/
def cleanLabel (l : List Char) : List Char := pyStrip (pipeSub (pyReplace l))

/-- The record returned by `parse_features_and_tags` (the Python dict with
its six keys). -/
structure ScenarioTags where
  approach : String
  fwo : String
  setoff : String
  cond_557c : String
  clause : String
  label : String
deriving DecidableEq, Repr

/-- The extractor `parse_features_and_tags` of app.py lines 34-103. -/
def parse_features_and_tags (text : String) : ScenarioTags :=
  let t := lowerList text.toList
  { approach := approachOf t
    fwo := fwoOf t
    setoff := setoffOf t
    cond_557c := cond557cOf t
    clause := clauseOf t
    label := String.mk (cleanLabel text.toList) }

/-- The consolidated set-off rule described by the spec (section 4.1 step
3c and section 9): a single capture of the text after the set-off marker —
the class `[a-z\s-]` stops at a pipe or at the end of the relevant clause —
falling back to the keyword scan only when the capture attempt produces
nothing.  Stated from the spec's words for the refinement claim C7. -/
def setoffConsolidated (t : List Char) : String :=
  if containsStr "set-off" t then
    match findCap1 t with
    | some g => String.mk (pyTitle (pyStrip g))
    | none => keywordSetoff t
  else "Unknown"

/-! ### Proof infrastructure: a splitting view of `pipeSub`

`pieces l` splits `l` at every occurrence of the pattern `\s*\|\s*`;
`render` joins pieces with the replacement text.  `pipeSub` equals
`render ∘ pieces`, which exposes the structure of the substituted string. -/

def piecesF : Nat → List Char → List (List Char)
  | 0, l => [l]
  | n + 1, l =>
    match l.dropWhile isWS with
    | [] => [l]
    | c :: r =>
      if c = '|' then [] :: piecesF n (r.dropWhile isWS)
      else (piecesF n r).modifyHead (fun q => l.takeWhile isWS ++ c :: q)

def pieces (l : List Char) : List (List Char) := piecesF l.length l

def render : List (List Char) → List Char
  | [] => []
  | [p] => p
  | p :: q :: ps => p ++ ' ' :: '|' :: ' ' :: render (q :: ps)

def modFirst (f : List Char → List Char) : List (List Char) → List (List Char)
  | [] => []
  | p :: ps => f p :: ps

def modLast (f : List Char → List Char) : List (List Char) → List (List Char)
  | [] => []
  | [p] => [f p]
  | p :: q :: ps => p :: modLast f (q :: ps)

/-! ### Bridge lemmas for the Boolean string tests -/

theorem isPrefixB_iff : ∀ p l : List Char, isPrefixB p l = true ↔ p <+: l := by
  intro p
  induction p with
  | nil => intro l; simp [isPrefixB, List.nil_prefix]
  | cons a as ih =>
    intro l
    cases l with
    | nil => simp [isPrefixB]
    | cons b bs =>
      simp only [isPrefixB, Bool.and_eq_true, decide_eq_true_eq, List.cons_prefix_cons]
      exact and_congr Iff.rfl (ih bs)

theorem isSubB_iff : ∀ l p : List Char, isSubB p l = true ↔ p <:+: l := by
  intro l
  induction l with
  | nil =>
    intro p
    simp only [isSubB, List.isEmpty_iff, List.infix_nil]
  | cons c cs ih =>
    intro p
    simp only [isSubB, Bool.or_eq_true, List.infix_cons_iff, isPrefixB_iff, ih]

theorem containsStr_iff (s : String) (l : List Char) :
    containsStr s l = true ↔ s.toList <:+: l :=
  isSubB_iff l s.toList

theorem dropWhile_length_le (p : Char → Bool) :
    ∀ l : List Char, (l.dropWhile p).length ≤ l.length := by
  intro l
  induction l with
  | nil => simp [List.dropWhile]
  | cons c cs ih =>
    simp only [List.dropWhile]
    cases p c
    · simp
    · simp only [List.length_cons]
      omega

/-! ### Fuel-independence and unfolding equations -/

theorem pyReplaceF_nil : ∀ n, pyReplaceF n [] = [] := by
  intro n; cases n <;> rfl

theorem pyReplaceF_fuel :
    ∀ n m l, l.length ≤ n → l.length ≤ m → pyReplaceF n l = pyReplaceF m l := by
  intro n
  induction n with
  | zero =>
    intro m l hn _
    have hl : l = [] := List.length_eq_zero.mp (Nat.le_zero.mp hn)
    subst hl
    rw [pyReplaceF_nil, pyReplaceF_nil]
  | succ n ih =>
    intro m l hn hm
    cases l with
    | nil => rw [pyReplaceF_nil, pyReplaceF_nil]
    | cons c cs =>
      cases m with
      | zero => simp at hm
      | succ m' =>
        simp only [pyReplaceF]
        cases h : isPrefixB patMiss (c :: cs) with
        | true =>
          simp only [if_pos rfl, h, if_true]
          have h7 : (cs.drop 7).length = cs.length - 7 := List.length_drop 7 cs
          have hlen : (c :: cs).length = cs.length + 1 := rfl
          rw [ih m' (cs.drop 7) (by omega) (by omega)]
        | false =>
          simp only [h, Bool.false_eq_true, if_false]
          have hlen : (c :: cs).length = cs.length + 1 := rfl
          rw [ih m' cs (by omega) (by omega)]

theorem pyReplace_nil : pyReplace [] = [] := rfl

theorem pyReplace_cons_pos {c : Char} {cs : List Char}
    (h : isPrefixB patMiss (c :: cs) = true) :
    pyReplace (c :: cs) = patFix ++ pyReplace (cs.drop 7) := by
  show pyReplaceF (cs.length + 1) (c :: cs) = _
  simp only [pyReplaceF, h, if_true]
  have h7 : (cs.drop 7).length = cs.length - 7 := List.length_drop 7 cs
  rw [pyReplaceF_fuel cs.length (cs.drop 7).length (cs.drop 7) (by omega) (by omega)]
  rfl

theorem pyReplace_cons_neg {c : Char} {cs : List Char}
    (h : isPrefixB patMiss (c :: cs) = false) :
    pyReplace (c :: cs) = c :: pyReplace cs := by
  show pyReplaceF (cs.length + 1) (c :: cs) = _
  simp only [pyReplaceF, h, Bool.false_eq_true, if_false]
  rfl

theorem pipeSubF_nil : ∀ n, pipeSubF n [] = [] := by
  intro n; cases n <;> rfl

theorem pipeSubF_fuel :
    ∀ n m l, l.length ≤ n → l.length ≤ m → pipeSubF n l = pipeSubF m l := by
  intro n
  induction n with
  | zero =>
    intro m l hn _
    have hl : l = [] := List.length_eq_zero.mp (Nat.le_zero.mp hn)
    subst hl
    rw [pipeSubF_nil, pipeSubF_nil]
  | succ n ih =>
    intro m l hn hm
    cases hl : l with
    | nil => rw [pipeSubF_nil, pipeSubF_nil]
    | cons c' cs =>
      cases m with
      | zero => simp [hl] at hm
      | succ m' =>
        subst hl
        simp only [pipeSubF]
        cases hdw : (c' :: cs).dropWhile isWS with
        | nil => rfl
        | cons c r =>
          have hlen : (c :: r).length ≤ (c' :: cs).length := by
            rw [← hdw]; exact dropWhile_length_le isWS _
          simp only [List.length_cons] at hlen hn hm
          by_cases hc : c = '|'
          · simp only [hc, if_pos rfl]
            have h2 : (r.dropWhile isWS).length ≤ r.length := dropWhile_length_le isWS r
            rw [ih m' (r.dropWhile isWS) (by omega) (by omega)]
            simp
          · simp only [if_neg hc]
            rw [ih m' r (by omega) (by omega)]

theorem pipeSub_eq_nilws {l : List Char} (h : l.dropWhile isWS = []) :
    pipeSub l = l := by
  cases l with
  | nil => rfl
  | cons c cs =>
    show pipeSubF (cs.length + 1) (c :: cs) = c :: cs
    simp only [pipeSubF, h]

theorem pipeSub_eq_pipe {l r : List Char} (h : l.dropWhile isWS = '|' :: r) :
    pipeSub l = ' ' :: '|' :: ' ' :: pipeSub (r.dropWhile isWS) := by
  cases l with
  | nil => simp [List.dropWhile] at h
  | cons c' cs =>
    show pipeSubF (cs.length + 1) (c' :: cs) = _
    simp only [pipeSubF, h, if_pos rfl]
    have h1 : ('|' :: r).length ≤ (c' :: cs).length := by
      rw [← h]; exact dropWhile_length_le isWS _
    simp only [List.length_cons] at h1
    have h2 : (r.dropWhile isWS).length ≤ r.length := dropWhile_length_le isWS r
    rw [pipeSubF_fuel cs.length (r.dropWhile isWS).length _ (by omega) (le_refl _)]
    simp [pipeSub]

theorem pipeSub_eq_copy {l : List Char} {c : Char} {r : List Char}
    (h : l.dropWhile isWS = c :: r) (hc : c ≠ '|') :
    pipeSub l = l.takeWhile isWS ++ c :: pipeSub r := by
  cases l with
  | nil => simp [List.dropWhile] at h
  | cons c' cs =>
    show pipeSubF (cs.length + 1) (c' :: cs) = _
    simp only [pipeSubF, h, if_neg hc]
    have h1 : (c :: r).length ≤ (c' :: cs).length := by
      rw [← h]; exact dropWhile_length_le isWS _
    simp only [List.length_cons] at h1
    rw [pipeSubF_fuel cs.length r.length r (by omega) (le_refl _)]
    rfl

theorem piecesF_nil : ∀ n, piecesF n [] = [[]] := by
  intro n; cases n <;> rfl

theorem piecesF_fuel :
    ∀ n m l, l.length ≤ n → l.length ≤ m → piecesF n l = piecesF m l := by
  intro n
  induction n with
  | zero =>
    intro m l hn _
    have hl : l = [] := List.length_eq_zero.mp (Nat.le_zero.mp hn)
    subst hl
    rw [piecesF_nil, piecesF_nil]
  | succ n ih =>
    intro m l hn hm
    cases hl : l with
    | nil => rw [piecesF_nil, piecesF_nil]
    | cons c' cs =>
      cases m with
      | zero => simp [hl] at hm
      | succ m' =>
        subst hl
        simp only [piecesF]
        cases hdw : (c' :: cs).dropWhile isWS with
        | nil => rfl
        | cons c r =>
          have hlen : (c :: r).length ≤ (c' :: cs).length := by
            rw [← hdw]; exact dropWhile_length_le isWS _
          simp only [List.length_cons] at hlen hn hm
          by_cases hc : c = '|'
          · simp only [hc, if_pos rfl]
            have h2 : (r.dropWhile isWS).length ≤ r.length := dropWhile_length_le isWS r
            rw [ih m' (r.dropWhile isWS) (by omega) (by omega)]
            simp
          · simp only [if_neg hc]
            rw [ih m' r (by omega) (by omega)]

theorem pieces_eq_nilws {l : List Char} (h : l.dropWhile isWS = []) :
    pieces l = [l] := by
  cases l with
  | nil => rfl
  | cons c cs =>
    show piecesF (cs.length + 1) (c :: cs) = [c :: cs]
    simp only [piecesF, h]

theorem pieces_eq_pipe {l r : List Char} (h : l.dropWhile isWS = '|' :: r) :
    pieces l = [] :: pieces (r.dropWhile isWS) := by
  cases l with
  | nil => simp [List.dropWhile] at h
  | cons c' cs =>
    show piecesF (cs.length + 1) (c' :: cs) = _
    simp only [piecesF, h, if_pos rfl]
    have h1 : ('|' :: r).length ≤ (c' :: cs).length := by
      rw [← h]; exact dropWhile_length_le isWS _
    simp only [List.length_cons] at h1
    have h2 : (r.dropWhile isWS).length ≤ r.length := dropWhile_length_le isWS r
    rw [piecesF_fuel cs.length (r.dropWhile isWS).length _ (by omega) (le_refl _)]
    simp [pieces]

theorem pieces_eq_copy {l : List Char} {c : Char} {r : List Char}
    (h : l.dropWhile isWS = c :: r) (hc : c ≠ '|') :
    pieces l = (pieces r).modifyHead (fun q => l.takeWhile isWS ++ c :: q) := by
  cases l with
  | nil => simp [List.dropWhile] at h
  | cons c' cs =>
    show piecesF (cs.length + 1) (c' :: cs) = _
    simp only [piecesF, h, if_neg hc]
    have h1 : (c :: r).length ≤ (c' :: cs).length := by
      rw [← h]; exact dropWhile_length_le isWS _
    simp only [List.length_cons] at h1
    rw [piecesF_fuel cs.length r.length r (by omega) (le_refl _)]
    rfl

theorem pieces_ne_nil : ∀ l : List Char, pieces l ≠ [] := by
  have aux : ∀ n l, l.length ≤ n → pieces l ≠ [] := by
    intro n
    induction n with
    | zero =>
      intro l h
      have hl : l = [] := List.length_eq_zero.mp (Nat.le_zero.mp h)
      subst hl
      simp [pieces, piecesF]
    | succ n ih =>
      intro l h
      cases hdw : l.dropWhile isWS with
      | nil => rw [pieces_eq_nilws hdw]; simp
      | cons c r =>
        have hlen : (c :: r).length ≤ l.length := by
          rw [← hdw]; exact dropWhile_length_le isWS _
        simp only [List.length_cons] at hlen
        by_cases hc : c = '|'
        · subst hc; rw [pieces_eq_pipe hdw]; simp
        · rw [pieces_eq_copy hdw hc]
          have h2 : (r.dropWhile isWS).length ≤ r.length := dropWhile_length_le isWS r
          have hr : pieces r ≠ [] := ih r (by omega)
          cases hp : pieces r with
          | nil => exact absurd hp hr
          | cons a t => simp
  intro l
  exact aux l.length l (le_refl _)

theorem pipeSub_eq_render : ∀ l : List Char, pipeSub l = render (pieces l) := by
  have aux : ∀ n l, l.length ≤ n → pipeSub l = render (pieces l) := by
    intro n
    induction n with
    | zero =>
      intro l h
      have hl : l = [] := List.length_eq_zero.mp (Nat.le_zero.mp h)
      subst hl
      rfl
    | succ n ih =>
      intro l h
      cases hdw : l.dropWhile isWS with
      | nil => rw [pieces_eq_nilws hdw, pipeSub_eq_nilws hdw]; rfl
      | cons c r =>
        have hlen : (c :: r).length ≤ l.length := by
          rw [← hdw]; exact dropWhile_length_le isWS _
        simp only [List.length_cons] at hlen
        by_cases hc : c = '|'
        · subst hc
          rw [pieces_eq_pipe hdw, pipeSub_eq_pipe hdw]
          have h2 : (r.dropWhile isWS).length ≤ r.length := dropWhile_length_le isWS r
          rw [ih (r.dropWhile isWS) (by omega)]
          cases hp : pieces (r.dropWhile isWS) with
          | nil => exact absurd hp (pieces_ne_nil _)
          | cons a t => simp [render]
        · rw [pieces_eq_copy hdw hc, pipeSub_eq_copy hdw hc]
          rw [ih r (by omega)]
          cases hp : pieces r with
          | nil => exact absurd hp (pieces_ne_nil _)
          | cons a t =>
            cases t with
            | nil => simp [render, List.modifyHead]
            | cons q t' => simp [render, List.modifyHead, List.append_assoc]
  intro l
  exact aux l.length l (le_refl _)

/-! ### Whitespace algebra for `dropLead` and `dropTrail` -/

theorem dropWhileWS_append_all {w : List Char} (y : List Char)
    (hw : ∀ c ∈ w, isWS c = true) :
    (w ++ y).dropWhile isWS = y.dropWhile isWS := by
  induction w with
  | nil => rfl
  | cons c w' ih =>
    have hc : isWS c = true := hw c (by simp)
    simp only [List.cons_append, List.dropWhile, hc]
    exact ih (fun d hd => hw d (by simp [hd]))

theorem dropWhile_head_false : ∀ {l : List Char} {c : Char} {r : List Char},
    l.dropWhile isWS = c :: r → isWS c = false := by
  intro l
  induction l with
  | nil => intro c r h; simp [List.dropWhile] at h
  | cons a t ih =>
    intro c r h
    simp only [List.dropWhile] at h
    cases hws : isWS a with
    | true => rw [hws] at h; exact ih h
    | false =>
      rw [hws] at h
      injection h with h1 h2
      rw [← h1]
      exact hws

theorem dropLead_idem (l : List Char) : dropLead (dropLead l) = dropLead l :=
  List.dropWhile_idempotent isWS l

theorem dropLead_double_append (q y : List Char) :
    dropLead (dropLead q ++ y) = dropLead (q ++ y) := by
  simp only [dropLead, List.dropWhile_append, List.dropWhile_idempotent]

theorem dropLead_append_all {w : List Char} (y : List Char)
    (hw : ∀ c ∈ w, isWS c = true) : dropLead (w ++ y) = dropLead y :=
  dropWhileWS_append_all y hw

theorem dropLead_cons_nonws {c : Char} {r : List Char} (hc : isWS c = false) :
    dropLead (c :: r) = c :: r := by
  simp [dropLead, List.dropWhile, hc]

theorem dropTrail_nil : dropTrail [] = [] := rfl

theorem dropTrail_eq_nil_of_all {l : List Char} (h : ∀ c ∈ l, isWS c = true) :
    dropTrail l = [] := by
  have : l.reverse.dropWhile isWS = [] :=
    List.dropWhile_eq_nil_iff.mpr (fun x hx => h x (List.mem_reverse.mp hx))
  simp [dropTrail, this]

theorem dropTrail_append_all {w : List Char} (l : List Char)
    (hw : ∀ c ∈ w, isWS c = true) : dropTrail (l ++ w) = dropTrail l := by
  have hrev : ∀ c ∈ w.reverse, isWS c = true :=
    fun c hc => hw c (List.mem_reverse.mp hc)
  simp only [dropTrail, List.reverse_append]
  rw [dropWhileWS_append_all l.reverse hrev]

theorem dropTrail_append_cons {a : List Char} {c : Char} (r : List Char)
    (hc : isWS c = false) : dropTrail (a ++ c :: r) = a ++ c :: dropTrail r := by
  simp only [dropTrail, List.reverse_append, List.reverse_cons, List.append_assoc,
    List.dropWhile_append]
  cases h : (r.reverse.dropWhile isWS).isEmpty with
  | true =>
    have : r.reverse.dropWhile isWS = [] := by
      cases hx : r.reverse.dropWhile isWS
      · rfl
      · rw [hx] at h; simp at h
    simp [this, List.dropWhile, hc]
  | false =>
    have : ¬ (r.reverse.dropWhile isWS ++ [c] ++ a.reverse).isEmpty = true := by
      cases hx : r.reverse.dropWhile isWS
      · rw [hx] at h; simp at h
      · simp [hx]
    simp only [← List.append_assoc, List.dropWhile_append] at this ⊢
    rw [if_neg (by simpa using this)] at *
    cases hx : r.reverse.dropWhile isWS with
    | nil => rw [hx] at h; simp at h
    | cons d t => simp [hx]

theorem dropTrail_idem (l : List Char) : dropTrail (dropTrail l) = dropTrail l := by
  simp [dropTrail, List.reverse_reverse, List.dropWhile_idempotent]

theorem dropTrail_append (x y : List Char) :
    dropTrail (x ++ y) = if dropTrail y = [] then dropTrail x else x ++ dropTrail y := by
  simp only [dropTrail, List.reverse_append, List.dropWhile_append]
  cases h : (y.reverse.dropWhile isWS).isEmpty with
  | true =>
    have hy : y.reverse.dropWhile isWS = [] := by
      cases hx : y.reverse.dropWhile isWS
      · rfl
      · rw [hx] at h; simp at h
    simp [hy]
  | false =>
    have hy : y.reverse.dropWhile isWS ≠ [] := by
      intro hx; rw [hx] at h; simp at h
    have : (y.reverse.dropWhile isWS).reverse ≠ [] := by
      simpa using hy
    simp [h, this]

theorem dropLead_dropTrail_comm (l : List Char) :
    dropLead (dropTrail l) = dropTrail (dropLead l) := by
  have hsplit : l.takeWhile isWS ++ l.dropWhile isWS = l :=
    List.takeWhile_append_dropWhile isWS l
  have hallws : ∀ c ∈ l.takeWhile isWS, isWS c = true :=
    fun c hc => List.mem_takeWhile_imp hc
  cases hdw : l.dropWhile isWS with
  | nil =>
    have hl : ∀ c ∈ l, isWS c = true := List.dropWhile_eq_nil_iff.mp hdw
    rw [dropTrail_eq_nil_of_all hl]
    simp [dropLead, hdw, dropTrail_nil]
  | cons c r =>
    have hc : isWS c = false := dropWhile_head_false hdw
    conv_lhs => rw [← hsplit, hdw]
    rw [dropTrail_append_cons r hc, dropLead_append_all _ hallws,
      dropLead_cons_nonws hc]
    rw [dropLead, hdw]
    have hx : dropTrail (c :: r) = c :: dropTrail r := by
      have := dropTrail_append_cons (a := []) r hc
      simpa using this
    rw [hx]

theorem pyStrip_eq_trail_lead (l : List Char) :
    pyStrip l = dropLead (dropTrail l) := by
  rw [pyStrip, dropLead_dropTrail_comm]

/-! ### How `pieces` interacts with stripping -/

theorem takeWhileWS_all (l : List Char) :
    ∀ c ∈ l.takeWhile isWS, isWS c = true :=
  fun _ hc => List.mem_takeWhile_imp hc

theorem takeWhileWS_append_nonws {w : List Char} {c : Char} (y : List Char)
    (hw : ∀ d ∈ w, isWS d = true) (hc : isWS c = false) :
    (w ++ c :: y).takeWhile isWS = w := by
  induction w with
  | nil => simp [List.takeWhile, hc]
  | cons d w' ih =>
    have hd : isWS d = true := hw d (by simp)
    simp only [List.cons_append, List.takeWhile, hd]
    exact congrArg (d :: ·) (ih (fun e he => hw e (by simp [he])))

theorem takeWhile_eq_nil_of_dropLead_eq {l : List Char} (h : dropLead l = l) :
    l.takeWhile isWS = [] := by
  have hsplit : l.takeWhile isWS ++ l.dropWhile isWS = l :=
    List.takeWhile_append_dropWhile isWS l
  rw [dropLead] at h
  rw [h] at hsplit
  have : (l.takeWhile isWS ++ l).length = l.length := by rw [hsplit]
  simp only [List.length_append] at this
  exact List.length_eq_zero.mp (by omega)

theorem pieces_dropLead (l : List Char) :
    pieces (dropLead l) = modFirst dropLead (pieces l) := by
  cases hdw : l.dropWhile isWS with
  | nil =>
    rw [pieces_eq_nilws hdw]
    simp [modFirst, dropLead, hdw, pieces, piecesF]
  | cons c r =>
    have hc : isWS c = false := dropWhile_head_false hdw
    by_cases hpipe : c = '|'
    · subst hpipe
      rw [pieces_eq_pipe hdw, dropLead, hdw]
      have hdw2 : ('|' :: r).dropWhile isWS = '|' :: r := by
        simp [List.dropWhile, hc]
      rw [pieces_eq_pipe hdw2]
      simp only [modFirst]
      rfl
    · rw [pieces_eq_copy hdw hpipe, dropLead, hdw]
      have hdw2 : (c :: r).dropWhile isWS = c :: r := by
        simp [List.dropWhile, hc]
      rw [pieces_eq_copy hdw2 hpipe]
      have htw : (c :: r).takeWhile isWS = [] := by
        simp [List.takeWhile, hc]
      cases hp : pieces r with
      | nil => exact absurd hp (pieces_ne_nil r)
      | cons a t =>
        simp only [List.modifyHead, htw, modFirst, List.nil_append]
        rw [dropLead_append_all _ (takeWhileWS_all l), dropLead_cons_nonws hc]

theorem pieces_dropTrail : ∀ l : List Char,
    pieces (dropTrail l) = modLast dropTrail (pieces l) := by
  have aux : ∀ n l, l.length ≤ n →
      pieces (dropTrail l) = modLast dropTrail (pieces l) := by
    intro n
    induction n with
    | zero =>
      intro l h
      have hl : l = [] := List.length_eq_zero.mp (Nat.le_zero.mp h)
      subst hl
      rfl
    | succ n ih =>
      intro l hlen0
      cases hdw : l.dropWhile isWS with
      | nil =>
        have hl : ∀ c ∈ l, isWS c = true := List.dropWhile_eq_nil_iff.mp hdw
        rw [pieces_eq_nilws hdw, dropTrail_eq_nil_of_all hl]
        simp [modLast, pieces, piecesF, dropTrail_eq_nil_of_all hl]
      | cons c r =>
        have hc : isWS c = false := dropWhile_head_false hdw
        have hsplit : l.takeWhile isWS ++ l.dropWhile isWS = l :=
          List.takeWhile_append_dropWhile isWS l
        have hlen : (c :: r).length ≤ l.length := by
          rw [← hdw]; exact dropWhile_length_le isWS l
        simp only [List.length_cons] at hlen
        have hdt : dropTrail l = l.takeWhile isWS ++ c :: dropTrail r := by
          conv_lhs => rw [← hsplit, hdw]
          exact dropTrail_append_cons r hc
        have hdw2 : (l.takeWhile isWS ++ c :: dropTrail r).dropWhile isWS
            = c :: dropTrail r := by
          rw [dropWhileWS_append_all _ (takeWhileWS_all l)]
          simp [List.dropWhile, hc]
        by_cases hpipe : c = '|'
        · subst hpipe
          rw [pieces_eq_pipe hdw, hdt, pieces_eq_pipe hdw2]
          have hcomm : (dropTrail r).dropWhile isWS
              = dropTrail (r.dropWhile isWS) := by
            have h1 := dropLead_dropTrail_comm r
            simpa [dropLead] using h1
          rw [hcomm]
          have hlen2 : (r.dropWhile isWS).length ≤ n :=
            le_trans (dropWhile_length_le isWS r) (by omega)
          rw [ih (r.dropWhile isWS) hlen2]
          cases hp : pieces (r.dropWhile isWS) with
          | nil => exact absurd hp (pieces_ne_nil _)
          | cons a t => simp [modLast]
        · rw [pieces_eq_copy hdw hpipe, hdt, pieces_eq_copy hdw2 hpipe]
          rw [ih r (by omega)]
          have htw2 : (l.takeWhile isWS ++ c :: dropTrail r).takeWhile isWS
              = l.takeWhile isWS :=
            takeWhileWS_append_nonws _ (takeWhileWS_all l) hc
          rw [htw2]
          cases hp : pieces r with
          | nil => exact absurd hp (pieces_ne_nil r)
          | cons a t =>
            cases t with
            | nil =>
              simp only [List.modifyHead, modLast]
              rw [dropTrail_append_cons a hc]
            | cons b t' =>
              simp only [List.modifyHead, modLast]
  intro l
  exact aux l.length l (le_refl _)

/-- Structure of the output of `pieces`: no piece contains a pipe, pieces
after the first have no leading whitespace, pieces before the last have no
trailing whitespace. -/
theorem pieces_head_leadOK {x : List Char} (hx : dropLead x = x) :
    ∀ a t, pieces x = a :: t → dropLead a = a := by
  intro a t hp
  cases hdw : x.dropWhile isWS with
  | nil =>
    rw [pieces_eq_nilws hdw] at hp
    injection hp with h1 _
    rw [← h1]
    exact hx
  | cons c r =>
    have hc : isWS c = false := dropWhile_head_false hdw
    have hx2 : x = c :: r := by rw [← hx, dropLead, hdw]
    by_cases hpipe : c = '|'
    · subst hpipe
      rw [pieces_eq_pipe hdw] at hp
      injection hp with h1 _
      rw [← h1]
      rfl
    · rw [pieces_eq_copy hdw hpipe] at hp
      have htw : x.takeWhile isWS = [] := takeWhile_eq_nil_of_dropLead_eq hx
      cases hq : pieces r with
      | nil => exact absurd hq (pieces_ne_nil r)
      | cons a' t' =>
        rw [hq] at hp
        simp only [List.modifyHead, htw, List.nil_append] at hp
        injection hp with h1 _
        rw [← h1]
        exact dropLead_cons_nonws hc

theorem pieces_shape : ∀ l : List Char,
    (∀ q ∈ pieces l, '|' ∉ q) ∧
    (∀ q ∈ (pieces l).tail, dropLead q = q) ∧
    (∀ q ∈ (pieces l).dropLast, dropTrail q = q) := by
  have aux : ∀ n l, l.length ≤ n →
      (∀ q ∈ pieces l, '|' ∉ q) ∧
      (∀ q ∈ (pieces l).tail, dropLead q = q) ∧
      (∀ q ∈ (pieces l).dropLast, dropTrail q = q) := by
    intro n
    induction n with
    | zero =>
      intro l h
      have hl : l = [] := List.length_eq_zero.mp (Nat.le_zero.mp h)
      subst hl
      refine ⟨?_, ?_, ?_⟩ <;> simp [pieces, piecesF]
    | succ n ih =>
      intro l hlen0
      cases hdw : l.dropWhile isWS with
      | nil =>
        have hl : ∀ c ∈ l, isWS c = true := List.dropWhile_eq_nil_iff.mp hdw
        rw [pieces_eq_nilws hdw]
        refine ⟨?_, ?_, ?_⟩
        · intro q hq hmem
          simp only [List.mem_singleton] at hq
          subst hq
          have := hl '|' hmem
          simp [isWS] at this
        · simp
        · simp
      | cons c r =>
        have hc : isWS c = false := dropWhile_head_false hdw
        have hsplit : l.takeWhile isWS ++ l.dropWhile isWS = l :=
          List.takeWhile_append_dropWhile isWS l
        have hlen : (c :: r).length ≤ l.length := by
          rw [← hdw]; exact dropWhile_length_le isWS l
        simp only [List.length_cons] at hlen
        by_cases hpipe : c = '|'
        · subst hpipe
          rw [pieces_eq_pipe hdw]
          have hlen2 : (r.dropWhile isWS).length ≤ n :=
            le_trans (dropWhile_length_le isWS r) (by omega)
          have ihr := ih (r.dropWhile isWS) hlen2
          have hleadr : dropLead (r.dropWhile isWS) = r.dropWhile isWS := by
            simp [dropLead, List.dropWhile_idempotent]
          refine ⟨?_, ?_, ?_⟩
          · intro q hq
            rcases List.mem_cons.mp hq with h1 | h1
            · subst h1; simp
            · exact ihr.1 q h1
          · intro q hq
            simp only [List.tail_cons] at hq
            cases hp : pieces (r.dropWhile isWS) with
            | nil => exact absurd hp (pieces_ne_nil _)
            | cons a t =>
              rw [hp] at hq
              rcases List.mem_cons.mp hq with h1 | h1
              · rw [h1]; exact pieces_head_leadOK hleadr a t hp
              · exact ihr.2.1 q (by rw [hp]; simpa using h1)
          · intro q hq
            cases hp : pieces (r.dropWhile isWS) with
            | nil => exact absurd hp (pieces_ne_nil _)
            | cons a t =>
              rw [hp] at hq
              simp only [List.dropLast] at hq
              cases t with
              | nil =>
                simp at hq
                subst hq
                rfl
              | cons b t' =>
                rcases List.mem_cons.mp hq with h1 | h1
                · subst h1; rfl
                · exact ihr.2.2 q (by rw [hp]; simpa using h1)
        · rw [pieces_eq_copy hdw hpipe]
          have ihr := ih r (by omega)
          cases hp : pieces r with
          | nil => exact absurd hp (pieces_ne_nil r)
          | cons a t =>
            simp only [List.modifyHead]
            have hqa : '|' ∉ l.takeWhile isWS ++ c :: a := by
              intro hmem
              rcases List.mem_append.mp hmem with h1 | h1
              · have := takeWhileWS_all l '|' h1
                simp [isWS] at this
              · rcases List.mem_cons.mp h1 with h2 | h2
                · exact hpipe h2.symm
                · exact ihr.1 a (by rw [hp]; simp) h2
            refine ⟨?_, ?_, ?_⟩
            · intro q hq
              rcases List.mem_cons.mp hq with h1 | h1
              · subst h1; exact hqa
              · exact ihr.1 q (by rw [hp]; simp [h1])
            · intro q hq
              simp only [List.tail_cons] at hq
              exact ihr.2.1 q (by rw [hp]; simpa using hq)
            · intro q hq
              cases t with
              | nil => simp [List.dropLast] at hq
              | cons b t' =>
                simp only [List.dropLast] at hq
                rcases List.mem_cons.mp hq with h1 | h1
                · subst h1
                  have hta : dropTrail a = a := by
                    apply ihr.2.2 a
                    rw [hp]
                    simp [List.dropLast]
                  rw [dropTrail_append_cons a hc, hta]
                · apply ihr.2.2 q
                  rw [hp]
                  simp only [List.dropLast]
                  simp [h1]
  intro l
  exact aux l.length l (le_refl _)

theorem pieces_of_nopipe : ∀ l : List Char, '|' ∉ l → pieces l = [l] := by
  have aux : ∀ n l, l.length ≤ n → '|' ∉ l → pieces l = [l] := by
    intro n
    induction n with
    | zero =>
      intro l h _
      have hl : l = [] := List.length_eq_zero.mp (Nat.le_zero.mp h)
      subst hl
      rfl
    | succ n ih =>
      intro l hlen0 hnp
      cases hdw : l.dropWhile isWS with
      | nil => exact pieces_eq_nilws hdw
      | cons c r =>
        have hsplit : l.takeWhile isWS ++ l.dropWhile isWS = l :=
          List.takeWhile_append_dropWhile isWS l
        have hlen : (c :: r).length ≤ l.length := by
          rw [← hdw]; exact dropWhile_length_le isWS l
        simp only [List.length_cons] at hlen
        have hcmem : c ∈ l := by
          rw [← hsplit, hdw]; simp
        by_cases hpipe : c = '|'
        · subst hpipe; exact absurd hcmem hnp
        · rw [pieces_eq_copy hdw hpipe]
          have hnr : '|' ∉ r := by
            intro hmem
            apply hnp
            rw [← hsplit, hdw]
            simp [hmem]
          rw [ih r (by omega) hnr]
          simp only [List.modifyHead]
          congr 1
          conv_rhs => rw [← hsplit, hdw]
  intro l
  exact aux l.length l (le_refl _)

/-- Splitting a string that starts with a clean piece followed by the
separator: the separator is found again exactly where it was inserted. -/
theorem pieces_append_sep : ∀ p : List Char, '|' ∉ p → dropTrail p = p →
    ∀ z : List Char,
    pieces (p ++ ' ' :: '|' :: ' ' :: z) = p :: pieces (dropLead z) := by
  have aux : ∀ n p, p.length ≤ n → '|' ∉ p → dropTrail p = p →
      ∀ z : List Char,
      pieces (p ++ ' ' :: '|' :: ' ' :: z) = p :: pieces (dropLead z) := by
    intro n
    induction n with
    | zero =>
      intro p hlen _ _ z
      have hp : p = [] := List.length_eq_zero.mp (Nat.le_zero.mp hlen)
      subst hp
      have hdw : (' ' :: '|' :: ' ' :: z).dropWhile isWS = '|' :: ' ' :: z := by
        simp [List.dropWhile, isWS]
      rw [List.nil_append, pieces_eq_pipe hdw]
      have : (' ' :: z).dropWhile isWS = z.dropWhile isWS := by
        simp [List.dropWhile, isWS]
      rw [this]
      rfl
    | succ n ih =>
      intro p hlen hnp hdt z
      cases hdwp : p.dropWhile isWS with
      | nil =>
        have hall : ∀ c ∈ p, isWS c = true := List.dropWhile_eq_nil_iff.mp hdwp
        have hp : p = [] := by
          by_contra hne
          have := dropTrail_eq_nil_of_all hall
          rw [hdt] at this
          exact hne this
        subst hp
        exact ih [] (by simp) (by simp) (by rfl) z
      | cons c r =>
        have hc : isWS c = false := dropWhile_head_false hdwp
        have hsplit : p.takeWhile isWS ++ p.dropWhile isWS = p :=
          List.takeWhile_append_dropWhile isWS p
        have hlen2 : (c :: r).length ≤ p.length := by
          rw [← hdwp]; exact dropWhile_length_le isWS p
        simp only [List.length_cons] at hlen2
        have hcmem : c ∈ p := by rw [← hsplit, hdwp]; simp
        have hpipe : c ≠ '|' := fun h => hnp (h ▸ hcmem)
        have hpform : p = p.takeWhile isWS ++ c :: r := by
          conv_lhs => rw [← hsplit, hdwp]
        have hdw2 : (p ++ ' ' :: '|' :: ' ' :: z).dropWhile isWS
            = c :: (r ++ ' ' :: '|' :: ' ' :: z) := by
          conv_lhs => rw [hpform]
          rw [List.append_assoc, List.cons_append,
            dropWhileWS_append_all _ (takeWhileWS_all p)]
          simp [List.dropWhile, hc]
        rw [pieces_eq_copy hdw2 hpipe]
        have hnr : '|' ∉ r := by
          intro hmem
          exact hnp (by rw [hpform]; simp [hmem])
        have hdtr : dropTrail r = r := by
          have h1 : dropTrail p = p.takeWhile isWS ++ c :: dropTrail r := by
            conv_lhs => rw [hpform]
            exact dropTrail_append_cons r hc
          have h2 := h1.symm.trans (hdt.trans hpform)
          have h3 := List.append_cancel_left h2
          injection h3
        have hrec := ih r (by omega) hnr hdtr z
        have htw : (p ++ ' ' :: '|' :: ' ' :: z).takeWhile isWS
            = p.takeWhile isWS := by
          conv_lhs => rw [hpform]
          rw [List.append_assoc, List.cons_append]
          exact takeWhileWS_append_nonws _ (takeWhileWS_all p) hc
        rw [htw, hrec]
        simp only [List.modifyHead]
        rw [← hpform]
  intro p
  exact aux p.length p (le_refl _)

/-- Re-splitting a rendered piece list recovers the pieces, provided they
have the shape `pieces` produces. -/
theorem pieces_render : ∀ ps : List (List Char), ps ≠ [] →
    (∀ q ∈ ps, '|' ∉ q) →
    (∀ q ∈ ps.tail, dropLead q = q) →
    (∀ q ∈ ps.dropLast, dropTrail q = q) →
    pieces (render ps) = ps := by
  intro ps
  induction ps with
  | nil => intro h; exact absurd rfl h
  | cons p ps' ih =>
    intro _ hpipes hlead htrail
    cases ps' with
    | nil =>
      show pieces p = [p]
      exact pieces_of_nopipe p (hpipes p (by simp))
    | cons q ps'' =>
      show pieces (p ++ ' ' :: '|' :: ' ' :: render (q :: ps'')) = _
      rw [pieces_append_sep p (hpipes p (by simp))
        (htrail p (by simp [List.dropLast]))]
      have hrec : pieces (render (q :: ps'')) = q :: ps'' := by
        apply ih (by simp) (fun x hx => hpipes x (by simp [hx]))
        · intro x hx
          simp only [List.tail_cons] at hx
          exact hlead x (by simp [hx])
        · intro x hx
          apply htrail x
          simp only [List.dropLast]
          simp [hx]
      have hlemA := pieces_dropLead (render (q :: ps''))
      rw [hrec] at hlemA
      rw [hlemA]
      have hq : dropLead q = q := hlead q (by simp)
      simp [modFirst, hq]

/-! ### Stripping commutes with rendering up to the outer strip -/

theorem render_cons_ne {x : List Char} {X : List (List Char)} (h : X ≠ []) :
    render (x :: X) = x ++ ' ' :: '|' :: ' ' :: render X := by
  cases X with
  | nil => exact absurd rfl h
  | cons a t => rfl

theorem dropLead_render_modFirst (ps : List (List Char)) :
    dropLead (render (modFirst dropLead ps)) = dropLead (render ps) := by
  cases ps with
  | nil => rfl
  | cons p ps' =>
    cases ps' with
    | nil =>
      show dropLead (render [dropLead p]) = dropLead (render [p])
      show dropLead (dropLead p) = dropLead p
      exact dropLead_idem p
    | cons q t =>
      show dropLead (render (dropLead p :: q :: t)) = _
      rw [render_cons_ne (by simp : (q :: t : List (List Char)) ≠ []),
        render_cons_ne (by simp : (q :: t : List (List Char)) ≠ [])]
      exact dropLead_double_append p _

theorem pyStrip_render_modFirst (ps : List (List Char)) :
    pyStrip (render (modFirst dropLead ps)) = pyStrip (render ps) := by
  rw [pyStrip, pyStrip, dropLead_render_modFirst]

theorem dropTrail_render_modLast : ∀ ps : List (List Char),
    dropTrail (render (modLast dropTrail ps)) = dropTrail (render ps) := by
  intro ps
  induction ps with
  | nil => rfl
  | cons q ps' ih =>
    cases ps' with
    | nil =>
      show dropTrail (render [dropTrail q]) = dropTrail (render [q])
      show dropTrail (dropTrail q) = dropTrail q
      exact dropTrail_idem q
    | cons r t =>
      have h1 : modLast dropTrail (r :: t) ≠ [] := by
        cases t <;> simp [modLast]
      show dropTrail (render (q :: modLast dropTrail (r :: t)))
          = dropTrail (render (q :: r :: t))
      rw [render_cons_ne h1,
        render_cons_ne (by simp : (r :: t : List (List Char)) ≠ [])]
      rw [show q ++ ' ' :: '|' :: ' ' :: render (modLast dropTrail (r :: t))
            = (q ++ [' ', '|', ' ']) ++ render (modLast dropTrail (r :: t)) from by
          simp,
        show q ++ ' ' :: '|' :: ' ' :: render (r :: t)
            = (q ++ [' ', '|', ' ']) ++ render (r :: t) from by simp]
      rw [dropTrail_append (q ++ [' ', '|', ' ']) (render (modLast dropTrail (r :: t))),
        dropTrail_append (q ++ [' ', '|', ' ']) (render (r :: t)), ih]

theorem pyStrip_render_modLast (ps : List (List Char)) :
    pyStrip (render (modLast dropTrail ps)) = pyStrip (render ps) := by
  rw [pyStrip_eq_trail_lead, pyStrip_eq_trail_lead, dropTrail_render_modLast]

/-! ### Occurrences of the misspelling -/

/-- An infix of an appended list lies in the left part, in the right part,
or straddles the boundary. -/
theorem infix_append_split {p a b : List Char} (h : p <:+: a ++ b) :
    p <:+: a ∨ p <:+: b ∨
      ∃ q1 q2, p = q1 ++ q2 ∧ q1 ≠ [] ∧ q2 ≠ [] ∧ q1 <:+ a ∧ q2 <+: b := by
  obtain ⟨s, t, hst⟩ := h
  have hassoc : s ++ (p ++ t) = a ++ b := by simpa [List.append_assoc] using hst
  by_cases h1 : s.length + p.length ≤ a.length
  · left
    have h2 : (a ++ b).drop s.length = p ++ t := by
      rw [← hassoc]; exact List.drop_left s (p ++ t)
    have hsa : s.length ≤ a.length := by omega
    have h3 : (a ++ b).drop s.length = a.drop s.length ++ b := by
      rw [List.drop_append_eq_append_drop]
      have : s.length - a.length = 0 := by omega
      rw [this, List.drop_zero]
    have h4 : p ++ t = a.drop s.length ++ b := by rw [← h2, h3]
    have h7 : List.take p.length (a.drop s.length ++ b)
        = (a.drop s.length).take p.length := by
      rw [List.take_append_eq_append_take]
      have hlen : (a.drop s.length).length = a.length - s.length := by
        simp [List.length_drop]
      have hz : p.length - (a.drop s.length).length = 0 := by omega
      rw [hz, List.take_zero, List.append_nil]
    have h9 : List.take p.length (p ++ t) = p := List.take_left' rfl
    have h5 : p = (a.drop s.length).take p.length := by
      conv_lhs => rw [← h9]
      rw [h4, h7]
    rw [h5]
    exact List.IsInfix.trans
      (List.IsPrefix.isInfix (List.take_prefix _ _))
      (List.IsSuffix.isInfix (List.drop_suffix _ _))
  · by_cases h2 : a.length ≤ s.length
    · right; left
      have h3 : (a ++ b).drop a.length = b := List.drop_left a b
      have h4 : (s ++ (p ++ t)).drop a.length = s.drop a.length ++ (p ++ t) := by
        rw [List.drop_append_eq_append_drop]
        have : a.length - s.length = 0 := by omega
        rw [this, List.drop_zero]
      have h5 : b = s.drop a.length ++ p ++ t := by
        conv_lhs => rw [← h3, ← hassoc]
        rw [h4, List.append_assoc]
      exact ⟨s.drop a.length, t, h5.symm⟩
    · right; right
      have hs : s.length < a.length := by omega
      have hk : a.length - s.length < p.length := by omega
      refine ⟨p.take (a.length - s.length), p.drop (a.length - s.length),
        (List.take_append_drop _ p).symm, ?_, ?_, ?_, ?_⟩
      · apply List.ne_nil_of_length_pos
        rw [List.length_take]
        omega
      · apply List.ne_nil_of_length_pos
        rw [List.length_drop]
        omega
      · -- a = s ++ p.take (a.length - s.length)
        have h3 : (a ++ b).take a.length = a := List.take_left' rfl
        have h4 : (s ++ (p ++ t)).take a.length
            = s ++ (p ++ t).take (a.length - s.length) := by
          rw [List.take_append_eq_append_take, List.take_of_length_le (by omega)]
        have h5 : (p ++ t).take (a.length - s.length)
            = p.take (a.length - s.length) := by
          rw [List.take_append_eq_append_take]
          have : a.length - s.length - p.length = 0 := by omega
          rw [this, List.take_zero, List.append_nil]
        have h6 : a = s ++ p.take (a.length - s.length) := by
          conv_lhs => rw [← h3, ← hassoc]
          rw [h4, h5]
        exact ⟨s, h6.symm⟩
      · -- b = p.drop (a.length - s.length) ++ t
        have h3 : (a ++ b).drop a.length = b := List.drop_left a b
        have h4 : (s ++ (p ++ t)).drop a.length
            = (p ++ t).drop (a.length - s.length) := by
          rw [List.drop_append_eq_append_drop,
            List.drop_eq_nil_of_le (by omega), List.nil_append]
        have h5 : (p ++ t).drop (a.length - s.length)
            = p.drop (a.length - s.length) ++ t := by
          rw [List.drop_append_eq_append_drop]
          have : a.length - s.length - p.length = 0 := by omega
          rw [this, List.drop_zero]
        have h6 : b = p.drop (a.length - s.length) ++ t := by
          conv_lhs => rw [← h3, ← hassoc]
          rw [h4, h5]
        exact ⟨t, h6.symm⟩

/-- A pattern that contains no capital A starts the output of `pyReplace`
exactly when it starts its input: the replacement inserts a string whose
head is a capital A, so it can neither create nor destroy such a start. -/
theorem pre_pyReplace : ∀ p : List Char, (∀ c ∈ p, c ≠ 'A') →
    ∀ t, (p <+: pyReplace t ↔ p <+: t) := by
  intro p
  induction p with
  | nil => intro _ t; simp [List.nil_prefix]
  | cons x p' ih =>
    intro hp t
    have hx : x ≠ 'A' := hp x (by simp)
    cases t with
    | nil => rw [pyReplace_nil]
    | cons d t' =>
      cases hm : isPrefixB patMiss (d :: t') with
      | true =>
        rw [pyReplace_cons_pos hm]
        have hd : d = 'A' := by
          have h1 := (isPrefixB_iff patMiss (d :: t')).mp hm
          have hpm : patMiss = 'A' :: "pporach".toList := rfl
          rw [hpm] at h1
          exact (List.cons_prefix_cons.mp h1).1.symm
        constructor
        · intro hpre
          have hpf : patFix = 'A' :: "pproach".toList := rfl
          rw [hpf] at hpre
          simp only [List.cons_append] at hpre
          exact absurd (List.cons_prefix_cons.mp hpre).1 hx
        · intro hpre
          exact absurd ((List.cons_prefix_cons.mp hpre).1.trans hd) hx
      | false =>
        rw [pyReplace_cons_neg hm]
        rw [List.cons_prefix_cons, List.cons_prefix_cons]
        exact and_congr Iff.rfl (ih (fun c hc => hp c (by simp [hc])) t')

/-- The output of `pyReplace` never contains the misspelling: the
replacement string does not contain it, and no new occurrence can straddle
a replacement boundary because no nonempty proper suffix of `"Approach"`
begins the misspelling. -/
theorem noApp_pyReplace : ∀ l : List Char, ¬ patMiss <:+: pyReplace l := by
  have aux : ∀ n l, l.length ≤ n → ¬ patMiss <:+: pyReplace l := by
    intro n
    induction n with
    | zero =>
      intro l hlen h
      have hl : l = [] := List.length_eq_zero.mp (Nat.le_zero.mp hlen)
      subst hl
      rw [pyReplace_nil] at h
      have := List.infix_nil.mp h
      simp [patMiss] at this
    | succ n ih =>
      intro l hlen h
      cases l with
      | nil =>
        rw [pyReplace_nil] at h
        have := List.infix_nil.mp h
        simp [patMiss] at this
      | cons c cs =>
        simp only [List.length_cons] at hlen
        cases hm : isPrefixB patMiss (c :: cs) with
        | true =>
          rw [pyReplace_cons_pos hm] at h
          rcases infix_append_split h with h1 | h1 | ⟨q1, q2, hpp, hne1, hne2, hsuf, _⟩
          · exact (by decide : ¬ patMiss <:+: patFix) h1
          · have hlen2 : (cs.drop 7).length ≤ n := by
              rw [List.length_drop]; omega
            exact ih (cs.drop 7) hlen2 h1
          · have hq1len : q1.length < 8 := by
              have := congrArg List.length hpp
              simp only [List.length_append] at this
              have h8 : patMiss.length = 8 := rfl
              have hq2 : 0 < q2.length := List.length_pos.mpr hne2
              omega
            have hq1 : q1 = patMiss.take q1.length := by
              rw [hpp, List.take_left' rfl]
            have hchk : ∀ k, k < 8 → 0 < k → ¬ (patMiss.take k <:+ patFix) := by
              decide
            exact hchk q1.length hq1len (List.length_pos.mpr hne1) (hq1 ▸ hsuf)
        | false =>
          rw [pyReplace_cons_neg hm] at h
          rcases List.infix_cons_iff.mp h with h1 | h1
          · have hpm : patMiss = 'A' :: "pporach".toList := rfl
            rw [hpm] at h1
            obtain ⟨hcA, hrest⟩ := List.cons_prefix_cons.mp h1
            have htr := (pre_pyReplace ("pporach".toList) (by decide) cs).mp hrest
            have hcontra : isPrefixB patMiss (c :: cs) = true := by
              apply (isPrefixB_iff _ _).mpr
              rw [hpm]
              exact List.cons_prefix_cons.mpr ⟨hcA, htr⟩
            rw [hm] at hcontra
            simp at hcontra
          · exact ih cs (by omega) h1
  intro l
  exact aux l.length l (le_refl _)

/-- A list without occurrence of the misspelling is fixed by `pyReplace`. -/
theorem pyReplace_eq_self : ∀ l : List Char, ¬ patMiss <:+: l → pyReplace l = l := by
  have aux : ∀ n l, l.length ≤ n → ¬ patMiss <:+: l → pyReplace l = l := by
    intro n
    induction n with
    | zero =>
      intro l hlen _
      have hl : l = [] := List.length_eq_zero.mp (Nat.le_zero.mp hlen)
      subst hl
      rfl
    | succ n ih =>
      intro l hlen hno
      cases l with
      | nil => rfl
      | cons c cs =>
        simp only [List.length_cons] at hlen
        cases hm : isPrefixB patMiss (c :: cs) with
        | true =>
          exact absurd
            (List.IsPrefix.isInfix ((isPrefixB_iff _ _).mp hm)) hno
        | false =>
          rw [pyReplace_cons_neg hm]
          have : ¬ patMiss <:+: cs := fun hc => hno (List.infix_cons hc)
          rw [ih cs (by omega) this]
  intro l
  exact aux l.length l (le_refl _)

/-- An infix of a rendered piece list whose characters avoid space and pipe
lies inside one of the pieces. -/
theorem infix_render {p : List Char} (hne : p ≠ [])
    (hchars : ∀ c ∈ p, c ≠ '|' ∧ c ≠ ' ') :
    ∀ ps, p <:+: render ps → ∃ q ∈ ps, p <:+: q := by
  intro ps
  induction ps with
  | nil =>
    intro h
    exact absurd (List.infix_nil.mp h) hne
  | cons q ps' ih =>
    intro h
    cases ps' with
    | nil => exact ⟨q, by simp, h⟩
    | cons r t =>
      rw [render_cons_ne (by simp : (r :: t : List (List Char)) ≠ [])] at h
      have hsep : ∀ x : Char, x ∈ ([' ', '|', ' '] : List Char) →
          x = ' ' ∨ x = '|' := by decide
      rcases infix_append_split h with h1 | h1 | ⟨q1, q2, hpp, hne1, hne2, hsuf, hpre⟩
      · exact ⟨q, by simp, h1⟩
      · have h1' : p <:+: [' ', '|', ' '] ++ render (r :: t) := by simpa using h1
        rcases infix_append_split h1' with h2 | h2 | ⟨q1, q2, hpp, hne1, hne2, hsuf, hpre⟩
        · cases p with
          | nil => exact absurd rfl hne
          | cons x p' =>
            have hx : x ∈ ([' ', '|', ' '] : List Char) :=
              List.Sublist.subset (List.IsInfix.sublist h2) (by simp)
            rcases hsep x hx with h3 | h3
            · exact absurd h3 (hchars x (by simp)).2
            · exact absurd h3 (hchars x (by simp)).1
        · obtain ⟨q', hq', hq2⟩ := ih h2
          exact ⟨q', by simp [hq'], hq2⟩
        · cases q1 with
          | nil => exact absurd rfl hne1
          | cons x q1' =>
            have hx : x ∈ ([' ', '|', ' '] : List Char) :=
              List.Sublist.subset
                (List.IsInfix.sublist (List.IsSuffix.isInfix hsuf)) (by simp)
            have hxp : x ∈ p := by rw [hpp]; simp
            rcases hsep x hx with h3 | h3
            · exact absurd h3 (hchars x hxp).2
            · exact absurd h3 (hchars x hxp).1
      · cases q2 with
        | nil => exact absurd rfl hne2
        | cons x q2' =>
          have hx : x = ' ' := (List.cons_prefix_cons.mp hpre).1
          have hxp : x ∈ p := by rw [hpp]; simp
          exact absurd hx (hchars x hxp).2

/-- Every piece is an infix of the split string (the first piece is even a
prefix). -/
theorem pieces_mem_infix : ∀ l : List Char, ∀ a t, pieces l = a :: t →
    (a <+: l) ∧ (∀ q ∈ t, q <:+: l) := by
  have aux : ∀ n l, l.length ≤ n → ∀ a t, pieces l = a :: t →
      (a <+: l) ∧ (∀ q ∈ t, q <:+: l) := by
    intro n
    induction n with
    | zero =>
      intro l hlen a t hp
      have hl : l = [] := List.length_eq_zero.mp (Nat.le_zero.mp hlen)
      subst hl
      have : pieces ([] : List Char) = [[]] := rfl
      rw [this] at hp
      injection hp with h1 h2
      subst h1
      subst h2
      exact ⟨List.nil_prefix, by simp⟩
    | succ n ih =>
      intro l hlen a t hp
      cases hdw : l.dropWhile isWS with
      | nil =>
        rw [pieces_eq_nilws hdw] at hp
        injection hp with h1 h2
        subst h1
        subst h2
        exact ⟨List.prefix_refl l, by simp⟩
      | cons c r =>
        have hsplit : l.takeWhile isWS ++ l.dropWhile isWS = l :=
          List.takeWhile_append_dropWhile isWS l
        have hlen2 : (c :: r).length ≤ l.length := by
          rw [← hdw]; exact dropWhile_length_le isWS l
        simp only [List.length_cons] at hlen2
        have hrl : r <:+ l := by
          refine ⟨l.takeWhile isWS ++ [c], ?_⟩
          rw [List.append_assoc]
          conv_rhs => rw [← hsplit, hdw]
          rfl
        by_cases hpipe : c = '|'
        · subst hpipe
          rw [pieces_eq_pipe hdw] at hp
          injection hp with h1 h2
          subst h1
          refine ⟨List.nil_prefix, ?_⟩
          intro q hq
          rw [← h2] at hq
          have hr2l : r.dropWhile isWS <:+ l :=
            List.IsSuffix.trans (List.dropWhile_suffix isWS) hrl
          cases hp2 : pieces (r.dropWhile isWS) with
          | nil => exact absurd hp2 (pieces_ne_nil _)
          | cons a2 t2 =>
            have hlen3 : (r.dropWhile isWS).length ≤ n :=
              le_trans (dropWhile_length_le isWS r) (by omega)
            have hih := ih (r.dropWhile isWS) hlen3 a2 t2 hp2
            rw [hp2] at hq
            rcases List.mem_cons.mp hq with h3 | h3
            · subst h3
              exact List.IsInfix.trans
                (List.IsPrefix.isInfix hih.1) (List.IsSuffix.isInfix hr2l)
            · exact List.IsInfix.trans (hih.2 q h3) (List.IsSuffix.isInfix hr2l)
        · rw [pieces_eq_copy hdw hpipe] at hp
          cases hp2 : pieces r with
          | nil => exact absurd hp2 (pieces_ne_nil r)
          | cons a2 t2 =>
            rw [hp2] at hp
            simp only [List.modifyHead] at hp
            injection hp with h1 h2
            have hih := ih r (by omega) a2 t2 hp2
            constructor
            · rw [← h1]
              obtain ⟨u, hu⟩ := hih.1
              refine ⟨u, ?_⟩
              rw [List.append_assoc, List.cons_append, hu]
              conv_rhs => rw [← hsplit, hdw]
            · intro q hq
              rw [← h2] at hq
              exact List.IsInfix.trans (hih.2 q hq) (List.IsSuffix.isInfix hrl)
  intro l
  exact aux l.length l (le_refl _)

/-! ### Idempotence of the label cleanup -/

theorem dropTrail_isPre (y : List Char) : dropTrail y <+: y := by
  have h1 : y.reverse.dropWhile isWS <:+ y.reverse := List.dropWhile_suffix isWS
  have h2 := List.reverse_prefix.mpr h1
  rwa [List.reverse_reverse] at h2

theorem pyStrip_isInfix (y : List Char) : pyStrip y <:+: y := by
  rw [pyStrip]
  exact List.IsInfix.trans
    (List.IsPrefix.isInfix (dropTrail_isPre (dropLead y)))
    (List.IsSuffix.isInfix (List.dropWhile_suffix isWS))

theorem noApp_pipeSub {y : List Char} (h : ¬ patMiss <:+: y) :
    ¬ patMiss <:+: pipeSub y := by
  intro hocc
  rw [pipeSub_eq_render] at hocc
  obtain ⟨q, hq, hq2⟩ := infix_render (by decide) (by decide) (pieces y) hocc
  cases hpz : pieces y with
  | nil => exact absurd hpz (pieces_ne_nil y)
  | cons a t =>
    have hmem := pieces_mem_infix y a t hpz
    rw [hpz] at hq
    rcases List.mem_cons.mp hq with h1 | h1
    · subst h1
      exact h (List.IsInfix.trans hq2 (List.IsPrefix.isInfix hmem.1))
    · exact h (List.IsInfix.trans hq2 (hmem.2 q h1))

theorem noApp_cleanLabel (l : List Char) : ¬ patMiss <:+: cleanLabel l := by
  rw [cleanLabel]
  intro h
  exact noApp_pipeSub (noApp_pyReplace l)
    (List.IsInfix.trans h (pyStrip_isInfix (pipeSub (pyReplace l))))

theorem pieces_pyStrip (y : List Char) :
    pieces (pyStrip y) = modLast dropTrail (modFirst dropLead (pieces y)) := by
  rw [pyStrip, pieces_dropTrail, pieces_dropLead]

/-- The label cleanup of app.py is idempotent. -/
theorem cleanLabel_idem (l : List Char) :
    cleanLabel (cleanLabel l) = cleanLabel l := by
  have h1 : pyReplace (cleanLabel l) = cleanLabel l :=
    pyReplace_eq_self _ (noApp_cleanLabel l)
  show pyStrip (pipeSub (pyReplace (cleanLabel l))) = cleanLabel l
  rw [h1]
  have hsh := pieces_shape (pyReplace l)
  have hren : pieces (render (pieces (pyReplace l))) = pieces (pyReplace l) :=
    pieces_render _ (pieces_ne_nil _) hsh.1 hsh.2.1 hsh.2.2
  have hclean : cleanLabel l = pyStrip (render (pieces (pyReplace l))) := by
    rw [cleanLabel, pipeSub_eq_render]
  rw [hclean, pipeSub_eq_render, pieces_pyStrip, hren]
  rw [pyStrip_render_modLast, pyStrip_render_modFirst]

/-! ### The second set-off regex never matches when the first fails -/

theorem cap2At_none {l : List Char} (h : cap1At l = none) : cap2At l = none := by
  rw [cap1At] at h
  rw [cap2At]
  by_cases hpre : isPrefixB ("set-off".toList) l = true
  · rw [if_pos hpre] at h ⊢
    cases hm : (l.drop 7).dropWhile isWS with
    | nil => rfl
    | cons c rest =>
      rw [hm] at h
      replace h : (if c = ':' then capGroup rest else none) = none := h
      show (if c = ':' then
          match rest.drop (rest.takeWhile isCapClass).length with
          | [] => none
          | d :: _ => if d = '|' then capGroup rest else none
        else none) = none
      by_cases hc : c = ':'
      · rw [if_pos hc] at h
        rw [if_pos hc]
        cases hd : rest.drop (rest.takeWhile isCapClass).length with
        | nil => rfl
        | cons d rest2 =>
          show (if d = '|' then capGroup rest else none) = none
          by_cases hdp : d = '|'
          · rw [if_pos hdp]
            exact h
          · rw [if_neg hdp]
      · rw [if_neg hc]
  · rw [if_neg hpre] at h ⊢

theorem findCap2_none : ∀ t : List Char, findCap1 t = none → findCap2 t = none := by
  intro t
  induction t with
  | nil => intro _; rfl
  | cons c cs ih =>
    intro h
    rw [findCap1] at h
    rw [findCap2]
    cases h1 : cap1At (c :: cs) with
    | some g => rw [h1] at h; simp at h
    | none =>
      rw [h1] at h
      replace h : findCap1 cs = none := h
      rw [cap2At_none h1]
      show findCap2 cs = none
      exact ih h

/-- Consolidating the two set-off regexes into the first one does not change
the result: whenever the first regex finds no match anywhere, neither does
the pipe-terminated variant, because any of its matches is also a match of
the first regex at the same position. -/
theorem setoffConsolidated_eq (t : List Char) :
    setoffConsolidated t = setoffOf t := by
  rw [setoffConsolidated, setoffOf]
  by_cases hso : containsStr "set-off" t = true
  · rw [if_pos hso, if_pos hso]
    cases h1 : findCap1 t with
    | some g => rfl
    | none =>
      rw [findCap2_none t h1]
  · rw [if_neg hso, if_neg hso]

/-! ## The claims -/

theorem ne_true_of_false {b : Bool} (h : b = false) : ¬ b = true := by
  rw [h]
  exact Bool.false_ne_true

theorem or2_eq_true {a b : Bool} (h : a = true ∨ b = true) : (a || b) = true := by
  rcases h with h | h <;> rw [h] <;> simp

theorem or2_eq_false {a b : Bool} (ha : a = false) (hb : b = false) :
    (a || b) = false := by
  rw [ha, hb]
  rfl

theorem or3_eq_false {a b c : Bool} (ha : a = false) (hb : b = false)
    (hc : c = false) : (a || b || c) = false := by
  rw [ha, hb, hc]
  rfl

theorem setoffOf_eq (t : List Char) : setoffOf t =
    if containsStr "set-off" t then
      match findCap1 t with
      | some g => String.mk (pyTitle (pyStrip g))
      | none =>
        match findCap2 t with
        | some g => String.mk (pyTitle (pyStrip g))
        | none => keywordSetoff t
    else "Unknown" := rfl

theorem setoffOf_keyword {t : List Char} (hso : containsStr "set-off" t = true)
    (hcap : findCap1 t = none) : setoffOf t = keywordSetoff t := by
  rw [setoffOf_eq, if_pos hso, hcap, findCap2_none t hcap]

/-- C1 counterexample: the claim predicts `setoff = BiAnnual` for a text
that contains `"set-off"` and `"bi-annual"` but no `"pay period"` and where
the capture regexes fail; on the code, the `"annual"` keyword check matches
inside `"bi-annual"` first, so `setoff = "Annual"`. -/
theorem c1_counterexample :
    containsStr "set-off" (lowerList "set-off bi-annual".toList) = true ∧
    findCap1 (lowerList "set-off bi-annual".toList) = none ∧
    findCap2 (lowerList "set-off bi-annual".toList) = none ∧
    containsStr "bi-annual" (lowerList "set-off bi-annual".toList) = true ∧
    containsStr "pay period" (lowerList "set-off bi-annual".toList) = false ∧
    (parse_features_and_tags "set-off bi-annual").setoff = "Annual" ∧
    (parse_features_and_tags "set-off bi-annual").setoff ≠ "Bi Annual" := by
  decide

/-- C1 (amended): when the text contains `"set-off"` and the capture regex
does not match, the keyword fallback assigns setoff in fixed priority:
`"pay period"` gives PayPeriod; otherwise `"annual"` gives Annual, and this
check also fires inside every bi-annual form, so a text containing
`"bi-annual"` and no `"pay period"` yields Annual (not BiAnnual); when
neither `"pay period"` nor `"annual"` occurs, no bi-annual form can occur
either (each contains `"annual"`), so setoff stays Unknown and the
BiAnnual keyword branch is unreachable. -/
theorem c1_amended_fallback (text : String) :
    containsStr "set-off" (lowerList text.toList) = true →
    findCap1 (lowerList text.toList) = none →
    ((containsStr "pay period" (lowerList text.toList) = true →
        (parse_features_and_tags text).setoff = "Pay Period") ∧
      (containsStr "pay period" (lowerList text.toList) = false →
        containsStr "annual" (lowerList text.toList) = true →
        (parse_features_and_tags text).setoff = "Annual") ∧
      (containsStr "pay period" (lowerList text.toList) = false →
        containsStr "annual" (lowerList text.toList) = false →
        (parse_features_and_tags text).setoff = "Unknown") ∧
      (containsStr "pay period" (lowerList text.toList) = false →
        containsStr "bi-annual" (lowerList text.toList) = true →
        (parse_features_and_tags text).setoff = "Annual")) := by
  intro hso hcap
  have hkw : (parse_features_and_tags text).setoff
      = keywordSetoff (lowerList text.toList) := setoffOf_keyword hso hcap
  have contra_bi : ∀ s : String, ("annual".toList <:+: s.toList) →
      containsStr "annual" (lowerList text.toList) = false →
      containsStr s (lowerList text.toList) = false := by
    intro s hin ha
    cases hx : containsStr s (lowerList text.toList) with
    | false => rfl
    | true =>
      have h3 := (containsStr_iff _ _).mpr
        (List.IsInfix.trans hin ((containsStr_iff _ _).mp hx))
      rw [h3] at ha
      exact ha
  refine ⟨?_, ?_, ?_, ?_⟩
  · intro h1
    rw [hkw, keywordSetoff, if_pos h1]
  · intro h1 h2
    rw [hkw, keywordSetoff, if_neg (ne_true_of_false h1), if_pos h2]
  · intro h1 h2
    have hb1 := contra_bi "bi annual" (by decide) h2
    have hb2 := contra_bi "bi-annual" (by decide) h2
    have hb3 := contra_bi "biannual" (by decide) h2
    rw [hkw, keywordSetoff, if_neg (ne_true_of_false h1),
      if_neg (ne_true_of_false h2),
      if_neg (ne_true_of_false (or3_eq_false hb1 hb2 hb3))]
  · intro h1 h2
    have ha : containsStr "annual" (lowerList text.toList) = true :=
      (containsStr_iff _ _).mpr
        (List.IsInfix.trans (by decide) ((containsStr_iff _ _).mp h2))
    rw [hkw, keywordSetoff, if_neg (ne_true_of_false h1), if_pos ha]

theorem c1_amended_fallback_witness :
    (parse_features_and_tags "set-off bi-annual").setoff = "Annual" :=
  (c1_amended_fallback "set-off bi-annual" (by decide) (by decide)).2.2.2
    (by decide) (by decide)

/-- C2: for every input, `parse_features_and_tags` is total and
deterministic: each enumerable field lands in its sentinel set, the set-off
field is a sentinel or the title-cased stripped capture of one of the two
regexes, and equal inputs give equal records. -/
theorem c2_total_deterministic (text : String) :
    ((parse_features_and_tags text).approach ∈
      (["Judgement Based", "Coles Based", "Unknown"] : List String)) ∧
    ((parse_features_and_tags text).fwo ∈
      (["Without FWO", "With FWO", "Unknown"] : List String)) ∧
    ((parse_features_and_tags text).cond_557c ∈
      (["N/A", "All Shifts", "Non-Clocked Shifts", "557C (Unspecified)"] :
        List String)) ∧
    ((parse_features_and_tags text).clause ∈
      (["28.11", "Unknown"] : List String)) ∧
    ((parse_features_and_tags text).setoff ∈
        (["Unknown", "Pay Period", "Annual", "Bi Annual"] : List String) ∨
      ∃ g, (findCap1 (lowerList text.toList) = some g ∨
            findCap2 (lowerList text.toList) = some g) ∧
        (parse_features_and_tags text).setoff = String.mk (pyTitle (pyStrip g))) ∧
    (∀ text2, text = text2 →
      parse_features_and_tags text = parse_features_and_tags text2) := by
  refine ⟨?_, ?_, ?_, ?_, ?_, ?_⟩
  · show approachOf (lowerList text.toList) ∈ _
    rw [approachOf]
    split
    · simp
    · split
      · simp
      · simp
  · show fwoOf (lowerList text.toList) ∈ _
    rw [fwoOf]
    split
    · simp
    · split
      · simp
      · simp
  · show cond557cOf (lowerList text.toList) ∈ _
    rw [cond557cOf]
    split
    · split
      · simp
      · split
        · simp
        · simp
    · simp
  · show clauseOf (lowerList text.toList) ∈ _
    rw [clauseOf]
    split
    · simp
    · simp
  · show setoffOf (lowerList text.toList) ∈ _ ∨ _
    by_cases hso : containsStr "set-off" (lowerList text.toList) = true
    · cases h1 : findCap1 (lowerList text.toList) with
      | some g =>
        right
        refine ⟨g, Or.inl rfl, ?_⟩
        show setoffOf (lowerList text.toList) = String.mk (pyTitle (pyStrip g))
        rw [setoffOf_eq, if_pos hso, h1]
      | none =>
        left
        rw [setoffOf_keyword hso h1, keywordSetoff]
        split
        · simp
        · split
          · simp
          · split
            · simp
            · simp
    · left
      rw [setoffOf_eq, if_neg hso]
      simp
  · intro text2 h
    rw [h]

theorem c2_total_deterministic_witness :
    (parse_features_and_tags "x").approach ∈
      (["Judgement Based", "Coles Based", "Unknown"] : List String) ∧
    parse_features_and_tags "x" = parse_features_and_tags "x" :=
  ⟨(c2_total_deterministic "x").1,
    (c2_total_deterministic "x").2.2.2.2.2 "x" rfl⟩

/-- C3: the worked example of the spec: every field of the record extracted
from the first Woolworths scenario string, including the corrected and
normalised label. -/
theorem c3_example_eval :
    parse_features_and_tags
        "Judgement Based Clause 28.11 Apporach | Without FWO | Set-off: Pay Period"
      = { approach := "Judgement Based", fwo := "Without FWO",
          setoff := "Pay Period", cond_557c := "N/A", clause := "28.11",
          label := "Judgement Based Clause 28.11 Approach | Without FWO | Set-off: Pay Period" } := by
  decide

/-- C4: the FWO dispatch checks `"without fwo"` first; only when it is
absent do `"with fwo"` or `"after fwo"` give WithFWO, and with none of the
phrases the result is Unknown. -/
theorem c4_fwo_order (text : String) :
    (containsStr "without fwo" (lowerList text.toList) = true →
      (parse_features_and_tags text).fwo = "Without FWO") ∧
    (containsStr "without fwo" (lowerList text.toList) = false →
      (containsStr "with fwo" (lowerList text.toList) = true ∨
        containsStr "after fwo" (lowerList text.toList) = true) →
      (parse_features_and_tags text).fwo = "With FWO") ∧
    (containsStr "without fwo" (lowerList text.toList) = false →
      containsStr "with fwo" (lowerList text.toList) = false →
      containsStr "after fwo" (lowerList text.toList) = false →
      (parse_features_and_tags text).fwo = "Unknown") := by
  refine ⟨?_, ?_, ?_⟩
  · intro h1
    show fwoOf _ = _
    rw [fwoOf, if_pos h1]
  · intro h1 h2
    show fwoOf _ = _
    rw [fwoOf, if_neg (ne_true_of_false h1), if_pos (or2_eq_true h2)]
  · intro h1 h2 h3
    show fwoOf _ = _
    rw [fwoOf, if_neg (ne_true_of_false h1),
      if_neg (ne_true_of_false (or2_eq_false h2 h3))]

theorem c4_fwo_order_witness :
    (parse_features_and_tags "Without FWO").fwo = "Without FWO" ∧
    (parse_features_and_tags "After FWO").fwo = "With FWO" ∧
    (parse_features_and_tags "xyz").fwo = "Unknown" :=
  ⟨(c4_fwo_order "Without FWO").1 (by decide),
    (c4_fwo_order "After FWO").2.1 (by decide) (Or.inr (by decide)),
    (c4_fwo_order "xyz").2.2 (by decide) (by decide) (by decide)⟩

/-- C5: the 557C dispatch: NotApplicable without `"557c"`; with it,
`"all shifts"` wins, else a non-clocked phrase, else the unspecified
sentinel. -/
theorem c5_cond557c (text : String) :
    (containsStr "557c" (lowerList text.toList) = false →
      (parse_features_and_tags text).cond_557c = "N/A") ∧
    (containsStr "557c" (lowerList text.toList) = true →
      containsStr "all shifts" (lowerList text.toList) = true →
      (parse_features_and_tags text).cond_557c = "All Shifts") ∧
    (containsStr "557c" (lowerList text.toList) = true →
      containsStr "all shifts" (lowerList text.toList) = false →
      (containsStr "non-clocked" (lowerList text.toList) = true ∨
        containsStr "non clocked" (lowerList text.toList) = true) →
      (parse_features_and_tags text).cond_557c = "Non-Clocked Shifts") ∧
    (containsStr "557c" (lowerList text.toList) = true →
      containsStr "all shifts" (lowerList text.toList) = false →
      containsStr "non-clocked" (lowerList text.toList) = false →
      containsStr "non clocked" (lowerList text.toList) = false →
      (parse_features_and_tags text).cond_557c = "557C (Unspecified)") := by
  refine ⟨?_, ?_, ?_, ?_⟩
  · intro h1
    show cond557cOf _ = _
    rw [cond557cOf, if_neg (ne_true_of_false h1)]
  · intro h1 h2
    show cond557cOf _ = _
    rw [cond557cOf, if_pos h1, if_pos h2]
  · intro h1 h2 h3
    show cond557cOf _ = _
    rw [cond557cOf, if_pos h1, if_neg (ne_true_of_false h2),
      if_pos (or2_eq_true h3)]
  · intro h1 h2 h3 h4
    show cond557cOf _ = _
    rw [cond557cOf, if_pos h1, if_neg (ne_true_of_false h2),
      if_neg (ne_true_of_false (or2_eq_false h3 h4))]

theorem c5_cond557c_witness :
    (parse_features_and_tags "x").cond_557c = "N/A" ∧
    (parse_features_and_tags "557C on all shifts").cond_557c = "All Shifts" ∧
    (parse_features_and_tags "557C non clocked").cond_557c = "Non-Clocked Shifts" ∧
    (parse_features_and_tags "557C").cond_557c = "557C (Unspecified)" :=
  ⟨(c5_cond557c "x").1 (by decide),
    (c5_cond557c "557C on all shifts").2.1 (by decide) (by decide),
    (c5_cond557c "557C non clocked").2.2.1 (by decide) (by decide)
      (Or.inr (by decide)),
    (c5_cond557c "557C").2.2.2 (by decide) (by decide) (by decide) (by decide)⟩

/-- C6: the empty string yields all-Unknown tags, `cond_557c = "N/A"`, and
the empty label. -/
theorem c6_empty_eval :
    parse_features_and_tags "" =
      { approach := "Unknown", fwo := "Unknown", setoff := "Unknown",
        cond_557c := "N/A", clause := "Unknown", label := "" } := by
  decide

/-- C7: the consolidated set-off rule — one capture regex, keyword scan
only when it finds nothing — computes the same setoff as the original
two-regex dispatch, for every input. -/
theorem c7_consolidated_refines (text : String) :
    setoffConsolidated (lowerList text.toList)
      = (parse_features_and_tags text).setoff :=
  setoffConsolidated_eq (lowerList text.toList)

/-- C8: the label cleanup is idempotent: extracting from an already-cleaned
label returns the label unchanged. -/
theorem c8_label_cleanup_idem (text : String) :
    (parse_features_and_tags (parse_features_and_tags text).label).label
      = (parse_features_and_tags text).label := by
  show String.mk (cleanLabel (String.mk (cleanLabel text.toList)).toList)
      = String.mk (cleanLabel text.toList)
  have h : (String.mk (cleanLabel text.toList)).toList
      = cleanLabel text.toList := rfl
  rw [h, cleanLabel_idem]

/-- C9: on `"Set-off: 6 months"` the capture regex matches with a
whitespace-only group, so after stripping the setoff is the empty string —
neither Unknown nor a keyword value, the keyword scan being suppressed by
the successful match. -/
theorem c9_whitespace_capture :
    findCap1 (lowerList "Set-off: 6 months".toList) = some [' '] ∧
    (parse_features_and_tags "Set-off: 6 months").setoff = "" ∧
    ("" : String) ∉ (["Unknown", "Pay Period", "Annual", "Bi Annual"] :
      List String) := by
  decide

/-- C10: the misspelling correction is global and case-sensitive: no label
ever contains `"Apporach"`; a text without an exact-case occurrence passes
through the replacement unchanged (so `"apporach"` and `"APPORACH"` are
kept); and a mixed-case example shows only the exact-case occurrence
replaced in the label. -/
theorem c10_replace_case_sensitive :
    (∀ text : String,
      isSubB patMiss (parse_features_and_tags text).label.toList = false) ∧
    (∀ text : String, isSubB patMiss text.toList = false →
      pyReplace text.toList = text.toList) ∧
    (parse_features_and_tags "apporach APPORACH Apporach").label
      = "apporach APPORACH Approach" := by
  refine ⟨?_, ?_, ?_⟩
  · intro text
    have h := noApp_cleanLabel text.toList
    have he : (parse_features_and_tags text).label.toList
        = cleanLabel text.toList := rfl
    rw [he]
    cases hb : isSubB patMiss (cleanLabel text.toList) with
    | false => rfl
    | true => exact absurd ((isSubB_iff _ _).mp hb) h
  · intro text hb
    apply pyReplace_eq_self
    intro hocc
    rw [(isSubB_iff _ _).mpr hocc] at hb
    exact absurd hb (by decide)
  · decide

theorem c10_replace_case_sensitive_witness :
    pyReplace ("apporach".toList) = "apporach".toList :=
  c10_replace_case_sensitive.2.1 "apporach" (by decide)

end ColesApp
